import Mathlib

/-!
Shallow embedding of the availability engine of `src/app.py`
(the free-slot loop of `check_availability`, lines 86-109), generalized to
the `compute_free_slots(window, busy, slot_duration)` contract of the
specification.  Timestamps are integers (minutes since some epoch);
intervals are half-open `[start, stop)`.
-/

namespace VoiceCalendar

/-- A half-open time interval `[start, stop)`.  The field `stop` renders the
source's `end`, which is a Lean keyword.  The same shape serves as the
window, as a busy interval and as an emitted free slot. -/
structure Interval where
  start : Int
  stop : Int
deriving DecidableEq

/-- The conflict test of the source loop:
`current < busy_end and slot_end > busy_start`. -/
def overlapsBusy (current slot_end : Int) (b : Interval) : Bool :=
  decide (current < b.stop) && decide (slot_end > b.start)

/-- The `is_free` flag of the source loop: the candidate
`[current, slot_end)` conflicts with no busy interval. -/
def is_free (current slot_end : Int) (busy : List Interval) : Bool :=
  busy.all fun b => ! overlapsBusy current slot_end b

/-- Fuel-indexed unfolding of the source's `while current < end_time` loop.
The fuel only bounds the number of iterations: with step `0 < d`, a fuel of
`(end_time - current).toNat` already exceeds the iteration count (each
iteration advances `current` by `d ≥ 1`), so the fueled loop computes
exactly what the unbounded source loop does (`loopFuel_eq_of_le` below). -/
def loopFuel (end_time d : Int) (busy : List Interval) : Nat → Int → List Interval
  | 0, _ => []
  | fuel + 1, current =>
    if current < end_time then
      let slot_end := current + d
      if is_free current slot_end busy then
        { start := current, stop := slot_end } :: loopFuel end_time d busy fuel slot_end
      else
        loopFuel end_time d busy fuel slot_end
    else []

/-- The free-slot loop of `check_availability` (src/app.py, lines 86-109),
with the hard-coded `start_time` (09:00), `end_time` (18:00) and one-hour
step generalized to parameters, as the specification's contract does. -/
def freeSlotsLoop (start_time end_time d : Int) (busy : List Interval) : List Interval :=
  loopFuel end_time d busy (end_time - start_time).toNat start_time

/-- Error taxonomy of the engine: exactly one kind. -/
inductive EngineError where
  | invalidArgument
deriving DecidableEq

/-- Modelled from the spec: the validation wrapper of
`compute_free_slots(window, busy, slot_duration)` is not in `src/app.py`
(the source hard-codes a valid window `[09:00, 18:00)` and a one-hour slot
duration); per the specification it fails with `InvalidArgument` when
`window.start >= window.end` or `slot_duration <= 0`, and otherwise runs
the source's free-slot loop unchanged. -/
def compute_free_slots (window : Interval) (busy : List Interval)
    (slot_duration : Int) : Except EngineError (List Interval) :=
  if window.start ≥ window.stop ∨ slot_duration ≤ 0 then
    Except.error EngineError.invalidArgument
  else
    Except.ok (freeSlotsLoop window.start window.stop slot_duration busy)

/-! Basic lemmas about the fueled loop. -/

theorem loopFuel_of_not_lt {e d : Int} {busy : List Interval} {fuel : Nat} {c : Int}
    (h : ¬ c < e) : loopFuel e d busy fuel c = [] := by
  cases fuel with
  | zero => rfl
  | succ n => simp [loopFuel, h]

theorem loopFuel_succ_of_free {e d : Int} {busy : List Interval} {n : Nat} {c : Int}
    (hce : c < e) (hf : is_free c (c + d) busy = true) :
    loopFuel e d busy (n + 1) c =
      { start := c, stop := c + d } :: loopFuel e d busy n (c + d) := by
  simp [loopFuel, hce, hf]

theorem loopFuel_succ_of_conflict {e d : Int} {busy : List Interval} {n : Nat} {c : Int}
    (hce : c < e) (hf : is_free c (c + d) busy = false) :
    loopFuel e d busy (n + 1) c = loopFuel e d busy n (c + d) := by
  simp [loopFuel, hce, hf]

/-- Fuel irrelevance: any fuel at least `(e - c).toNat` gives the same
result (with a positive step, the loop does at most that many iterations),
so `freeSlotsLoop` computes what the source's unbounded loop computes. -/
theorem loopFuel_eq_of_le {e d : Int} {busy : List Interval} (hd : 0 < d) :
    ∀ fuel fuel' : Nat, ∀ c : Int, (e - c).toNat ≤ fuel → fuel ≤ fuel' →
      loopFuel e d busy fuel c = loopFuel e d busy fuel' c := by
  intro fuel
  induction fuel with
  | zero =>
    intro fuel' c hc _
    have hce : ¬ c < e := by omega
    rw [loopFuel_of_not_lt hce, loopFuel_of_not_lt hce]
  | succ n ih =>
    intro fuel' c hc hle
    obtain ⟨m, rfl⟩ : ∃ m, fuel' = m + 1 := ⟨fuel' - 1, by omega⟩
    by_cases hce : c < e
    · simp only [loopFuel, hce, if_true]
      have hrec : (e - (c + d)).toNat ≤ n := by omega
      rw [ih m (c + d) hrec (by omega)]
    · rw [loopFuel_of_not_lt hce, loopFuel_of_not_lt hce]

/-- Membership invariants of the loop: every emitted slot starts at or
after the current position, starts before `e`, has exact length `d`, and —
when `d` divides the remaining length `e - c` — ends at or before `e`. -/
theorem mem_loopFuel {e d : Int} {busy : List Interval} (hd : 0 < d) :
    ∀ fuel : Nat, ∀ c : Int, ∀ s : Interval, s ∈ loopFuel e d busy fuel c →
      c ≤ s.start ∧ s.start < e ∧ s.stop = s.start + d ∧
        (d ∣ (e - c) → s.stop ≤ e) := by
  intro fuel
  induction fuel with
  | zero => intro c s hs; simp [loopFuel] at hs
  | succ n ih =>
    intro c s hs
    by_cases hce : c < e
    · simp only [loopFuel, hce, if_true] at hs
      by_cases hf : is_free c (c + d) busy
      · simp only [hf, if_true, List.mem_cons] at hs
        rcases hs with rfl | hs
        · refine ⟨le_refl _, hce, rfl, ?_⟩
          intro hdvd
          have h1 : d ≤ e - c := Int.le_of_dvd (by omega) hdvd
          simp only
          omega
        · have := ih (c + d) s hs
          refine ⟨by omega, this.2.1, this.2.2.1, ?_⟩
          intro hdvd
          exact this.2.2.2 (by
            have : e - (c + d) = (e - c) + (-1) * d := by ring
            rw [this]
            exact Int.dvd_add hdvd ⟨-1, by ring⟩)
      · simp only [hf, if_false] at hs
        have := ih (c + d) s hs
        refine ⟨by omega, this.2.1, this.2.2.1, ?_⟩
        intro hdvd
        exact this.2.2.2 (by
          have : e - (c + d) = (e - c) + (-1) * d := by ring
          rw [this]
          exact Int.dvd_add hdvd ⟨-1, by ring⟩)
    · rw [loopFuel_of_not_lt hce] at hs
      simp at hs

/-- Every emitted slot passed the conflict check against every busy
interval. -/
theorem mem_loopFuel_no_overlap {e d : Int} {busy : List Interval} :
    ∀ fuel : Nat, ∀ c : Int, ∀ s : Interval, s ∈ loopFuel e d busy fuel c →
      ∀ b ∈ busy, ¬ (s.start < b.stop ∧ s.stop > b.start) := by
  intro fuel
  induction fuel with
  | zero => intro c s hs; simp [loopFuel] at hs
  | succ n ih =>
    intro c s hs b hb
    by_cases hce : c < e
    · simp only [loopFuel, hce, if_true] at hs
      by_cases hf : is_free c (c + d) busy
      · simp only [hf, if_true, List.mem_cons] at hs
        rcases hs with rfl | hs
        · have := (List.all_eq_true.mp hf) b hb
          simp only [overlapsBusy, Bool.not_eq_true', Bool.and_eq_false_iff,
            decide_eq_false_iff_not, not_lt] at this
          simp only [gt_iff_lt, not_and, not_lt]
          rcases this with h | h
          · intro hc; omega
          · intro hc; omega
        · exact ih (c + d) s hs b hb
      · simp only [hf, if_false] at hs
        exact ih (c + d) s hs b hb
    · rw [loopFuel_of_not_lt hce] at hs
      simp at hs

/-- Arithmetic fact for the iteration count: once the window is exhausted
(`e ≤ c`), the ceiling of `(e - c) / d` is zero. -/
theorem ceil_toNat_eq_zero {e c d : Int} (hd : 0 < d) (h : e ≤ c) :
    ((e - c + d - 1) / d).toNat = 0 := by
  rcases le_or_lt 0 (e - c + d - 1) with h0 | h0
  · rw [Int.ediv_eq_zero_of_lt h0 (by omega)]
    rfl
  · exact Int.toNat_of_nonpos (le_of_lt (Int.ediv_neg' h0 hd))

/-- With no busy intervals the loop emits one slot per iteration, so its
length is the ceiling of the window length over the step. -/
theorem loopFuel_length_nil {e d : Int} (hd : 0 < d) :
    ∀ fuel : Nat, ∀ c : Int, (e - c).toNat ≤ fuel →
      (loopFuel e d [] fuel c).length = ((e - c + d - 1) / d).toNat := by
  intro fuel
  induction fuel with
  | zero =>
    intro c hc
    have hce : ¬ c < e := by omega
    rw [loopFuel_of_not_lt hce, ceil_toNat_eq_zero hd (by omega)]
    rfl
  | succ n ih =>
    intro c hc
    by_cases hce : c < e
    · have hfree : is_free c (c + d) [] = true := by simp [is_free]
      simp only [loopFuel, hce, if_true, hfree, List.length_cons]
      rw [ih (c + d) (by omega)]
      have key : e - c + d - 1 = (e - (c + d) + d - 1) + 1 * d := by ring
      rw [key, Int.add_mul_ediv_right _ _ (by omega : d ≠ 0)]
      have h2 : 0 ≤ e - (c + d) + d - 1 := by omega
      have h3 : 0 ≤ (e - (c + d) + d - 1) / d := Int.ediv_nonneg h2 (by omega)
      omega
    · rw [loopFuel_of_not_lt hce, ceil_toNat_eq_zero hd (by omega)]
      rfl

/-- With no busy intervals, the head of the loop's output (when present)
starts at the current position. -/
theorem loopFuel_head_nil {e d : Int} {fuel : Nat} {c : Int} {y : Interval}
    (h : (loopFuel e d [] fuel c).head? = some y) : y.start = c := by
  cases fuel with
  | zero => simp [loopFuel] at h
  | succ n =>
    by_cases hce : c < e
    · have hfree : is_free c (c + d) [] = true := by simp [is_free]
      simp only [loopFuel, hce, if_true, hfree, List.head?_cons, Option.some.injEq] at h
      rw [← h]
    · rw [loopFuel_of_not_lt hce] at h
      simp at h

/-- With no busy intervals, consecutive emitted slots are contiguous: each
slot starts exactly where the previous one stops. -/
theorem loopFuel_chain_nil {e d : Int} :
    ∀ fuel : Nat, ∀ c : Int,
      List.Chain' (fun a b : Interval => b.start = a.stop) (loopFuel e d [] fuel c) := by
  intro fuel
  induction fuel with
  | zero => intro c; simp [loopFuel]
  | succ n ih =>
    intro c
    by_cases hce : c < e
    · have hfree : is_free c (c + d) [] = true := by simp [is_free]
      simp only [loopFuel, hce, if_true, hfree]
      refine List.chain'_cons'.mpr ⟨?_, ih (c + d)⟩
      intro y hy
      exact loopFuel_head_nil (Option.mem_def.mp hy)
    · rw [loopFuel_of_not_lt hce]
      simp

/-- Emitted slots are pairwise separated: each stops at or before every
later one starts (so they are non-overlapping and chronologically
ordered). -/
theorem loopFuel_pairwise {e d : Int} {busy : List Interval} (hd : 0 < d) :
    ∀ fuel : Nat, ∀ c : Int,
      List.Pairwise (fun a b : Interval => a.stop ≤ b.start) (loopFuel e d busy fuel c) := by
  intro fuel
  induction fuel with
  | zero => intro c; simp [loopFuel]
  | succ n ih =>
    intro c
    by_cases hce : c < e
    · simp only [loopFuel, hce, if_true]
      by_cases hf : is_free c (c + d) busy
      · simp only [hf, if_true]
        refine List.Pairwise.cons ?_ (ih (c + d))
        intro y hy
        have := (mem_loopFuel hd n (c + d) y hy).1
        simp only
        omega
      · simp only [hf, if_false]
        exact ih (c + d)
    · rw [loopFuel_of_not_lt hce]
      simp

/-- A window no longer than one step (and no busy intervals) yields exactly
the single slot `[c, c + d)` — which overshoots `e` whenever `e < c + d`. -/
theorem loopFuel_short {e d : Int} {fuel : Nat} {c : Int}
    (hce : c < e) (hle : e ≤ c + d) (hfuel : (e - c).toNat ≤ fuel) :
    loopFuel e d [] fuel c = [{ start := c, stop := c + d }] := by
  cases fuel with
  | zero => omega
  | succ n =>
    have hfree : is_free c (c + d) [] = true := by simp [is_free]
    simp only [loopFuel, hce, if_true, hfree]
    rw [loopFuel_of_not_lt (by omega : ¬ c + d < e)]

/-- A busy interval that conflicts with no reachable candidate (candidates
are the positions `≥ lo` at multiples of `d`) can be dropped from the busy
list without changing the loop's output. -/
theorem loopFuel_cons_irrelevant {e d lo : Int} {b : Interval} {busy : List Interval}
    (hd : 0 < d)
    (hb : ∀ x : Int, lo ≤ x → d ∣ (x - lo) → x < e → ¬ (x < b.stop ∧ x + d > b.start)) :
    ∀ fuel : Nat, ∀ c : Int, lo ≤ c → d ∣ (c - lo) →
      loopFuel e d (b :: busy) fuel c = loopFuel e d busy fuel c := by
  intro fuel
  induction fuel with
  | zero => intro c _ _; rfl
  | succ n ih =>
    intro c hc hdvd
    by_cases hce : c < e
    · have hnb := hb c hc hdvd hce
      have hov : overlapsBusy c (c + d) b = false := by
        simp only [overlapsBusy, Bool.and_eq_false_iff, decide_eq_false_iff_not, not_lt]
        by_cases h1 : c < b.stop
        · right; omega
        · left; omega
      have hfree_eq : is_free c (c + d) (b :: busy) = is_free c (c + d) busy := by
        simp [is_free, hov]
      have hdvd' : d ∣ (c + d - lo) := by
        have h : c + d - lo = (c - lo) + d := by ring
        rw [h]
        exact dvd_add hdvd (dvd_refl d)
      have hrec := ih (c + d) (by omega) hdvd'
      simp only [loopFuel, hce, if_true, hfree_eq, hrec]
    · rw [loopFuel_of_not_lt hce, loopFuel_of_not_lt hce]

/-- Adding a busy interval can only remove slots, keeping the survivors in
their original relative order. -/
theorem loopFuel_sublist {e d : Int} {b : Interval} {busy : List Interval} :
    ∀ fuel : Nat, ∀ c : Int,
      (loopFuel e d (b :: busy) fuel c).Sublist (loopFuel e d busy fuel c) := by
  intro fuel
  induction fuel with
  | zero => intro c; simp [loopFuel]
  | succ n ih =>
    intro c
    by_cases hce : c < e
    · simp only [loopFuel, hce, if_true]
      by_cases hf : is_free c (c + d) busy
      · simp only [hf, if_true]
        by_cases hfb : is_free c (c + d) (b :: busy)
        · simp only [hfb, if_true]
          exact (ih (c + d)).cons₂ _
        · simp only [hfb, if_false]
          exact (ih (c + d)).cons _
      · have hfb : ¬ is_free c (c + d) (b :: busy) = true := by
          intro hcontra
          apply hf
          simp only [is_free, List.all_cons, Bool.and_eq_true] at hcontra
          simp only [is_free]
          exact hcontra.2
        simp only [hf, if_false, hfb]
        exact ih (c + d)
    · rw [loopFuel_of_not_lt hce, loopFuel_of_not_lt hce]

/-- Inversion of a successful run: the inputs were valid and the output is
the source loop's output. -/
theorem compute_free_slots_ok {w : Interval} {busy : List Interval} {d : Int}
    {slots : List Interval} (h : compute_free_slots w busy d = Except.ok slots) :
    w.start < w.stop ∧ 0 < d ∧ slots = freeSlotsLoop w.start w.stop d busy := by
  rw [compute_free_slots] at h
  by_cases hcond : w.start ≥ w.stop ∨ d ≤ 0
  · rw [if_pos hcond] at h
    exact absurd h (by simp)
  · rw [if_neg hcond] at h
    push_neg at hcond
    exact ⟨hcond.1, hcond.2, (Except.ok.inj h).symm⟩

/-! Claim theorems. -/

/-- C1: every slot in the result of the free-slot computation overlaps no
busy interval: there is no busy `b` with `slot.start < b.end` and
`slot.end > b.start`. -/
theorem result_slot_overlaps_no_busy (w : Interval) (busy : List Interval) (d : Int)
    (slots : List Interval) (s b : Interval)
    (h : compute_free_slots w busy d = Except.ok slots) (hs : s ∈ slots)
    (hb : b ∈ busy) : ¬ (s.start < b.stop ∧ s.stop > b.start) := by
  obtain ⟨_, _, rfl⟩ := compute_free_slots_ok h
  exact mem_loopFuel_no_overlap _ _ s hs b hb

/-- Witness for C1 at window `[0, 120)`, busy `[0, 60)`, duration 60. -/
theorem result_slot_overlaps_no_busy_witness :
    compute_free_slots ⟨0, 120⟩ [⟨0, 60⟩] 60 = Except.ok [⟨60, 120⟩] ∧
    (⟨60, 120⟩ : Interval) ∈ ([⟨60, 120⟩] : List Interval) ∧
    (⟨0, 60⟩ : Interval) ∈ ([⟨0, 60⟩] : List Interval) ∧
    ¬ ((60 : Int) < 60 ∧ (120 : Int) > 0) :=
  ⟨rfl, by decide, by decide,
    result_slot_overlaps_no_busy ⟨0, 120⟩ [⟨0, 60⟩] 60 [⟨60, 120⟩] ⟨60, 120⟩ ⟨0, 60⟩
      rfl (by decide) (by decide)⟩

/-- C2 counterexample: at window `[0, 30)`, no busy intervals and duration
60, the source loop emits `[0, 60)` — the partial slot is NOT dropped, the
emitted slot's end exceeds `window.end` (`60 > 30`), and the result of a
window shorter than the slot duration is NOT empty. -/
theorem partial_slot_dropped_cex :
    compute_free_slots ⟨0, 30⟩ [] 60 = Except.ok [⟨0, 60⟩] ∧ ¬ ((60 : Int) ≤ 30) :=
  ⟨rfl, by decide⟩

/-- C2 amended: the final partial slot is emitted at full length rather
than dropped.  Every emitted slot ends strictly before
`window.end + slot_duration` (it may exceed `window.end` itself), and a
window with `0 < window.end - window.start < slot_duration` and no busy
intervals yields the single overshooting slot
`[window.start, window.start + slot_duration)`. -/
theorem partial_slot_emitted_amended (w : Interval) (busy : List Interval) (d : Int)
    (slots : List Interval) (h : compute_free_slots w busy d = Except.ok slots) :
    (∀ s ∈ slots, s.stop < w.stop + d) ∧
    (w.stop - w.start < d → busy = [] →
      slots = [{ start := w.start, stop := w.start + d }]) := by
  obtain ⟨hw, hd, rfl⟩ := compute_free_slots_ok h
  constructor
  · intro s hs
    have hm := mem_loopFuel hd _ _ s hs
    omega
  · intro hshort hbusy
    subst hbusy
    exact loopFuel_short hw (by omega) (le_refl _)

/-- Witness for C2's amended theorem at window `[0, 30)`, duration 60. -/
theorem partial_slot_emitted_amended_witness :
    compute_free_slots ⟨0, 30⟩ [] 60 = Except.ok [⟨0, 60⟩] ∧
    ((∀ s ∈ ([⟨0, 60⟩] : List Interval), s.stop < 30 + 60) ∧
      ((30 : Int) - 0 < 60 → ([] : List Interval) = [] →
        ([⟨0, 60⟩] : List Interval) = [⟨0, 0 + 60⟩])) :=
  ⟨rfl, partial_slot_emitted_amended ⟨0, 30⟩ [] 60 [⟨0, 60⟩] rfl⟩

/-- C3 counterexample: at window `[0, 90)`, no busy intervals and duration
60, the result has two slots, not `floor((90 - 0) / 60) = 1`. -/
theorem empty_busy_floor_count_cex :
    compute_free_slots ⟨0, 90⟩ [] 60 = Except.ok [⟨0, 60⟩, ⟨60, 120⟩] ∧
    ¬ (([⟨0, 60⟩, ⟨60, 120⟩] : List Interval).length = (((90 : Int) - 0) / 60).toNat) :=
  ⟨rfl, by decide⟩

/-- C3 amended: with no busy intervals the result has exactly
`ceil((window.end - window.start) / slot_duration)` slots (the floor only
when the duration divides the window length), and the slots are
contiguous, non-overlapping and chronologically ordered. -/
theorem empty_busy_slots_amended (w : Interval) (d : Int) (slots : List Interval)
    (h : compute_free_slots w [] d = Except.ok slots) :
    slots.length = ((w.stop - w.start + d - 1) / d).toNat ∧
    List.Chain' (fun a b : Interval => b.start = a.stop) slots ∧
    List.Pairwise (fun a b : Interval => a.stop ≤ b.start) slots := by
  obtain ⟨hw, hd, rfl⟩ := compute_free_slots_ok h
  exact ⟨loopFuel_length_nil hd _ _ (le_refl _), loopFuel_chain_nil _ _,
    loopFuel_pairwise hd _ _⟩

/-- Witness for C3's amended theorem at window `[0, 120)`, duration 60. -/
theorem empty_busy_slots_amended_witness :
    compute_free_slots ⟨0, 120⟩ [] 60 = Except.ok [⟨0, 60⟩, ⟨60, 120⟩] ∧
    (([⟨0, 60⟩, ⟨60, 120⟩] : List Interval).length = (((120 : Int) - 0 + 60 - 1) / 60).toNat ∧
      List.Chain' (fun a b : Interval => b.start = a.stop) [⟨0, 60⟩, ⟨60, 120⟩] ∧
      List.Pairwise (fun a b : Interval => a.stop ≤ b.start) [⟨0, 60⟩, ⟨60, 120⟩]) :=
  ⟨rfl, empty_busy_slots_amended ⟨0, 120⟩ 60 [⟨0, 60⟩, ⟨60, 120⟩] rfl⟩

/-- C4: the engine fails with its only error kind, `InvalidArgument`,
exactly when `window.start ≥ window.end` or `slot_duration ≤ 0`; for every
other input it returns a result. -/
theorem invalid_argument_iff (w : Interval) (busy : List Interval) (d : Int) :
    (compute_free_slots w busy d = Except.error EngineError.invalidArgument ↔
      w.stop ≤ w.start ∨ d ≤ 0) ∧
    ((compute_free_slots w busy d).isOk = true ↔ w.start < w.stop ∧ 0 < d) := by
  by_cases hcond : w.start ≥ w.stop ∨ d ≤ 0
  · rw [compute_free_slots, if_pos hcond]
    refine ⟨⟨fun _ => hcond, fun _ => rfl⟩, ⟨fun h => ?_, fun h => ?_⟩⟩
    · simp [Except.isOk, Except.toBool] at h
    · omega
  · rw [compute_free_slots, if_neg hcond]
    push_neg at hcond
    refine ⟨⟨fun h => absurd h (by simp), fun h => ?_⟩, ⟨fun _ => hcond, fun _ => rfl⟩⟩
    omega

/-- C5 counterexample: at window `[09:00, 18:00)` (minutes 540-1080), busy
`[09:00, 10:30)` (540-630), duration 60, the engine's slots start at 11:00
(660) — candidates step in fixed one-hour strides from `window.start`, so
the spec's claimed result starting at 10:30 (630) is not what the code
produces. -/
theorem scenario_0900_1800_cex :
    compute_free_slots ⟨540, 1080⟩ [⟨540, 630⟩] 60 =
      Except.ok [⟨660, 720⟩, ⟨720, 780⟩, ⟨780, 840⟩, ⟨840, 900⟩, ⟨900, 960⟩,
        ⟨960, 1020⟩, ⟨1020, 1080⟩] ∧
    ([⟨660, 720⟩, ⟨720, 780⟩, ⟨780, 840⟩, ⟨840, 900⟩, ⟨900, 960⟩,
        ⟨960, 1020⟩, ⟨1020, 1080⟩] : List Interval) ≠
      [⟨630, 690⟩, ⟨690, 750⟩, ⟨750, 810⟩, ⟨810, 870⟩, ⟨870, 930⟩,
        ⟨930, 990⟩, ⟨990, 1050⟩] :=
  ⟨rfl, by decide⟩

/-- C5 amended: for window `[09:00, 18:00)`, busy `{[09:00, 10:30)}` and
one-hour slots, the result is the seven hour-aligned slots from 11:00 to
18:00 (the 09:00-10:00 and 10:00-11:00 candidates are excluded by
overlap; the walk does not restart at the busy interval's end). -/
theorem scenario_0900_1800_amended :
    compute_free_slots ⟨540, 1080⟩ [⟨540, 630⟩] 60 =
      Except.ok [⟨660, 720⟩, ⟨720, 780⟩, ⟨780, 840⟩, ⟨840, 900⟩, ⟨900, 960⟩,
        ⟨960, 1020⟩, ⟨1020, 1080⟩] := rfl

/-- C6 counterexample: at window `[0, 90)` with duration 60, the emitted
slot `[60, 120)` ends after `window.end = 90`, violating the claimed
`end ≤ window.end` invariant. -/
theorem slot_within_window_cex :
    compute_free_slots ⟨0, 90⟩ [] 60 = Except.ok [⟨0, 60⟩, ⟨60, 120⟩] ∧
    (⟨60, 120⟩ : Interval) ∈ ([⟨0, 60⟩, ⟨60, 120⟩] : List Interval) ∧
    ¬ ((120 : Int) ≤ 90) :=
  ⟨rfl, by decide, by decide⟩

/-- C6 amended: every emitted slot has exact length `slot_duration` and
starts inside `[window.start, window.end)`; its end stays at or before
`window.end` whenever `slot_duration` divides the window length (and only
the final slot can overshoot otherwise). -/
theorem slot_invariant_amended (w : Interval) (busy : List Interval) (d : Int)
    (slots : List Interval) (s : Interval)
    (h : compute_free_slots w busy d = Except.ok slots) (hs : s ∈ slots) :
    s.stop = s.start + d ∧ w.start ≤ s.start ∧ s.start < w.stop ∧
      (d ∣ (w.stop - w.start) → s.stop ≤ w.stop) := by
  obtain ⟨hw, hd, rfl⟩ := compute_free_slots_ok h
  have hm := mem_loopFuel hd _ _ s hs
  exact ⟨hm.2.2.1, hm.1, hm.2.1, hm.2.2.2⟩

/-- Witness for C6's amended theorem at window `[0, 120)`, duration 60. -/
theorem slot_invariant_amended_witness :
    compute_free_slots ⟨0, 120⟩ [] 60 = Except.ok [⟨0, 60⟩, ⟨60, 120⟩] ∧
    (⟨60, 120⟩ : Interval) ∈ ([⟨0, 60⟩, ⟨60, 120⟩] : List Interval) ∧
    ((120 : Int) = 60 + 60 ∧ (0 : Int) ≤ 60 ∧ (60 : Int) < 120 ∧
      ((60 : Int) ∣ 120 - 0 → (120 : Int) ≤ 120)) :=
  ⟨rfl, by decide,
    slot_invariant_amended ⟨0, 120⟩ [] 60 [⟨0, 60⟩, ⟨60, 120⟩] ⟨60, 120⟩ rfl (by decide)⟩

/-- C7: a busy interval exactly equal to
`[window.start, window.start + slot_duration)` excludes only the first
candidate slot: the result is the empty-busy result with its first slot
removed. -/
theorem first_slot_excluded_only (w : Interval) (d : Int)
    (hw : w.start < w.stop) (hd : 0 < d) :
    compute_free_slots w [{ start := w.start, stop := w.start + d }] d =
      Except.map List.tail (compute_free_slots w [] d) := by
  have hcond : ¬ (w.start ≥ w.stop ∨ d ≤ 0) := by omega
  rw [compute_free_slots, compute_free_slots, if_neg hcond, if_neg hcond]
  have key : freeSlotsLoop w.start w.stop d [⟨w.start, w.start + d⟩] =
      (freeSlotsLoop w.start w.stop d []).tail := by
    unfold freeSlotsLoop
    obtain ⟨n, hn⟩ : ∃ n, (w.stop - w.start).toNat = n + 1 :=
      ⟨(w.stop - w.start).toNat - 1, by omega⟩
    rw [hn]
    have hov : overlapsBusy w.start (w.start + d) ⟨w.start, w.start + d⟩ = true := by
      simp only [overlapsBusy, Bool.and_eq_true, decide_eq_true_eq]
      exact ⟨by omega, by omega⟩
    have hfree : is_free w.start (w.start + d) [⟨w.start, w.start + d⟩] = false := by
      simp [is_free, hov]
    have hfree0 : is_free w.start (w.start + d) ([] : List Interval) = true := by
      simp [is_free]
    rw [loopFuel_succ_of_conflict hw hfree, loopFuel_succ_of_free hw hfree0,
      List.tail_cons]
    refine loopFuel_cons_irrelevant hd ?_ n (w.start + d) (le_refl _) ⟨0, by ring⟩
    intro x hx _ _ hover
    have h1 : x < w.start + d := hover.1
    omega
  rw [key]
  rfl

/-- Witness for C7 at window `[0, 120)`, duration 60. -/
theorem first_slot_excluded_only_witness :
    (0 : Int) < 120 ∧ (0 : Int) < 60 ∧
    compute_free_slots ⟨0, 120⟩ [⟨0, 0 + 60⟩] 60 =
      Except.map List.tail (compute_free_slots ⟨0, 120⟩ [] 60) :=
  ⟨by decide, by decide, first_slot_excluded_only ⟨0, 120⟩ 60 (by decide) (by decide)⟩

/-- C8 counterexample: the busy interval `[100, 110)` lies fully outside
the window `[0, 90)` (its start is at or after `window.end`), yet adding
it removes the overshooting final slot `[60, 120)`, because the conflict
test compares against the candidate's end `120 > 100`. -/
theorem outside_busy_no_effect_cex :
    (90 : Int) ≤ 100 ∧
    compute_free_slots ⟨0, 90⟩ [⟨100, 110⟩] 60 = Except.ok [⟨0, 60⟩] ∧
    compute_free_slots ⟨0, 90⟩ [] 60 = Except.ok [⟨0, 60⟩, ⟨60, 120⟩] ∧
    ([⟨0, 60⟩] : List Interval) ≠ [⟨0, 60⟩, ⟨60, 120⟩] :=
  ⟨by decide, rfl, rfl, by decide⟩

/-- C8 amended: adding a busy interval `b` that ends at or before
`window.start` never changes the result; adding one that starts at or
after `window.end` changes nothing provided `slot_duration` divides the
window length (so no candidate overshoots past `window.end` into `b`). -/
theorem outside_busy_no_effect_amended (w : Interval) (busy : List Interval)
    (d : Int) (b : Interval) (hd : 0 < d)
    (ho : b.stop ≤ w.start ∨ (w.stop ≤ b.start ∧ d ∣ (w.stop - w.start))) :
    compute_free_slots w (b :: busy) d = compute_free_slots w busy d := by
  rw [compute_free_slots, compute_free_slots]
  by_cases hcond : w.start ≥ w.stop ∨ d ≤ 0
  · rw [if_pos hcond, if_pos hcond]
  · rw [if_neg hcond, if_neg hcond]
    congr 1
    unfold freeSlotsLoop
    refine loopFuel_cons_irrelevant hd ?_ _ w.start (le_refl _) ⟨0, by ring⟩
    intro x hx hdvd hxe hover
    rcases ho with hleft | ⟨hright, hwdvd⟩
    · omega
    · have hdvd2 : d ∣ (w.stop - x) := by
        have heq : w.stop - x = (w.stop - w.start) - (x - w.start) := by ring
        rw [heq]
        exact dvd_sub hwdvd hdvd
      have hstep : d ≤ w.stop - x := Int.le_of_dvd (by omega) hdvd2
      omega

/-- Witness for C8's amended theorem: busy `[200, 300)` beyond window
`[0, 120)` with duration 60 leaves the result unchanged. -/
theorem outside_busy_no_effect_amended_witness :
    (0 : Int) < 60 ∧
    ((300 : Int) ≤ 0 ∨ ((120 : Int) ≤ 200 ∧ (60 : Int) ∣ 120 - 0)) ∧
    compute_free_slots ⟨0, 120⟩ [⟨200, 300⟩] 60 = compute_free_slots ⟨0, 120⟩ [] 60 :=
  ⟨by decide, by decide,
    outside_busy_no_effect_amended ⟨0, 120⟩ [] 60 ⟨200, 300⟩ (by decide) (by decide)⟩

/-- C9: the free-slot computation is deterministic — identical window,
busy list and slot duration give identical results (it is a pure
function of its inputs). -/
theorem deterministic_engine (w1 w2 : Interval) (b1 b2 : List Interval) (d1 d2 : Int)
    (hw : w1 = w2) (hb : b1 = b2) (hd : d1 = d2) :
    compute_free_slots w1 b1 d1 = compute_free_slots w2 b2 d2 := by
  rw [hw, hb, hd]

/-- Witness for C9 at a concrete input. -/
theorem deterministic_engine_witness :
    (⟨0, 120⟩ : Interval) = ⟨0, 120⟩ ∧ ([] : List Interval) = [] ∧ (60 : Int) = 60 ∧
    compute_free_slots ⟨0, 120⟩ [] 60 = compute_free_slots ⟨0, 120⟩ [] 60 :=
  ⟨rfl, rfl, rfl, deterministic_engine ⟨0, 120⟩ ⟨0, 120⟩ [] [] 60 60 rfl rfl rfl⟩

/-- C10: the computation is antitone in the busy list — adding a busy
interval only removes slots, and the surviving slots keep their relative
order (the new result is a sublist of the old one). -/
theorem busy_antitone (w : Interval) (busy : List Interval) (d : Int) (b : Interval)
    (l1 l2 : List Interval)
    (h1 : compute_free_slots w (b :: busy) d = Except.ok l1)
    (h2 : compute_free_slots w busy d = Except.ok l2) : l1.Sublist l2 := by
  obtain ⟨_, _, rfl⟩ := compute_free_slots_ok h1
  obtain ⟨_, _, rfl⟩ := compute_free_slots_ok h2
  exact loopFuel_sublist _ _

/-- Witness for C10 at window `[0, 120)`, duration 60, adding busy
`[0, 60)`. -/
theorem busy_antitone_witness :
    compute_free_slots ⟨0, 120⟩ [⟨0, 60⟩] 60 = Except.ok [⟨60, 120⟩] ∧
    compute_free_slots ⟨0, 120⟩ [] 60 = Except.ok [⟨0, 60⟩, ⟨60, 120⟩] ∧
    ([⟨60, 120⟩] : List Interval).Sublist [⟨0, 60⟩, ⟨60, 120⟩] :=
  ⟨rfl, rfl,
    busy_antitone ⟨0, 120⟩ [] 60 ⟨0, 60⟩ [⟨60, 120⟩] [⟨0, 60⟩, ⟨60, 120⟩] rfl rfl⟩

end VoiceCalendar
